import Mathlib

/-!
Verification of the temporal resampling / GPX-assembly engine of
`Export_Candidate_release.py` (Withings → GPX converter).

Modelling conventions.
A Python `datetime` is represented by its POSIX timestamp as an exact
rational number of seconds; `timedelta(seconds = d)` is addition of `d`,
`(a - b).total_seconds()` is `a - b`, and `dt.timestamp()` is the rational
itself.  Python floats are modelled as exact rationals.  A CSV file is
`Option (List (List Cell))`: `none` is an absent file, otherwise the list of
its rows (header row included, the reader skips it).  A cell records only the
outcomes of the parses the script ever attempts on it; `none` means that
parse raises `ValueError`.  An uncaught exception is `Except.error ()`.
-/

namespace WithingsGPX

/-- `TimeSeriesData` from the source: two parallel sequences of timestamps
and values. -/
structure TimeSeriesData where
  timestamps : List ℚ
  values : List ℚ
deriving DecidableEq, Repr

/-- Python `int(x)` applied to a float (e.g. `int(dt.timestamp())`,
`str(int(value))`): truncation toward zero. -/
def truncQ (q : ℚ) : ℤ := if 0 ≤ q then q.floor else q.ceil

/-- One CSV cell, abstractly: the script only ever feeds a cell to
`datetime.fromisoformat`, to `[int(x) for x in ...]`, or to
`[float(x) for x in ...]`; each field holds that parse's result, with `none`
when the parse raises `ValueError`. -/
structure Cell where
  asTimestamp : Option ℚ
  asIntList : Option (List ℤ)
  asRatList : Option (List ℚ)
deriving DecidableEq, Repr

/-- A well-formed data row `(timestamp, [durations], [values])`, used to build
concrete inputs. -/
def mkRow (t : ℚ) (durs : List ℤ) (vals : List ℚ) : List Cell :=
  [⟨some t, none, none⟩, ⟨none, some durs, none⟩, ⟨none, none, some vals⟩]

/-- `bisect.bisect_left(a, x)`: on a sorted list (the only way the script uses
it) it returns the leftmost insertion point, i.e. the number of elements
strictly smaller than `x`; modelled by that count. -/
def bisect_left (a : List ℚ) (x : ℚ) : ℕ :=
  a.countP (fun y => decide (y < x))

/-- `bisect.bisect_right(a, x)`: on a sorted list, the number of elements
`≤ x`. -/
def bisect_right (a : List ℚ) (x : ℚ) : ℕ :=
  a.countP (fun y => decide (y ≤ x))

/-- The `for duration, value in zip(durations, values)` loop of
`_parse_withings_row`: append `(current_dt, value, duration)`, then advance
`current_dt` by `duration` seconds. -/
def expandRow (t : ℚ) : List (ℤ × ℚ) → List (ℚ × ℚ × ℤ)
  | [] => []
  | (d, v) :: rest => (t, v, d) :: expandRow (t + (d : ℚ)) rest

/-- `_parse_withings_row`: the three-way unpacking of the row and all three
parses happen inside `try`; `ValueError` / `IndexError` is caught and the row
yields no points. -/
def parse_withings_row (row : List Cell) : List (ℚ × ℚ × ℤ) :=
  match row with
  | [c0, c1, c2] =>
    match c0.asTimestamp, c1.asIntList, c2.asRatList with
    | some t, some durs, some vals => expandRow t (durs.zip vals)
    | _, _, _ => []
  | _ => []

/-- The record loop of `read_expanded_data`: every data row contributes its
parsed `(ts, val, dur)` triples, of which `(ts, val)` is kept, in file
order. -/
def decodePoints (records : List (List Cell)) : List (ℚ × ℚ) :=
  (records.map (fun r => (parse_withings_row r).map (fun p => (p.1, p.2.1)))).flatten

/-- Python `all_points.sort(key = lambda x: x[0])` is a stable sort by
timestamp; insertion sort is also stable, hence produces the identical
list. -/
def sortByTs (l : List (ℚ × ℚ)) : List (ℚ × ℚ) :=
  l.insertionSort (fun p q => p.1 ≤ q.1)

/-- Body of `read_expanded_data` once the header row has been skipped:
`None` when no points were decoded, otherwise the timestamp-sorted series. -/
def decodeRecords (records : List (List Cell)) : Option TimeSeriesData :=
  if decodePoints records = [] then none
  else
    let sorted := sortByTs (decodePoints records)
    some ⟨sorted.map Prod.fst, sorted.map Prod.snd⟩

/-- `read_expanded_data`: `None` for an absent file, otherwise skip the header
row and decode the remaining rows. -/
def read_expanded_data (file : Option (List (List Cell))) : Option TimeSeriesData :=
  match file with
  | none => none
  | some rows => decodeRecords (rows.drop 1)

/-- The interval loop of `read_expanded_cadence_data`: the rate
`value / duration * 60` is attributed to `end_of_interval`; a
non-positive-duration interval emits nothing, but the cursor still moves to
the interval end. -/
def cadenceRowStep (t : ℚ) : List (ℤ × ℚ) → List (ℚ × ℚ)
  | [] => []
  | (d, v) :: rest =>
    if 0 < d then (t + (d : ℚ), v / (d : ℚ) * 60) :: cadenceRowStep (t + (d : ℚ)) rest
    else cadenceRowStep (t + (d : ℚ)) rest

/-- One row of `read_expanded_cadence_data`.  In the source, `row[0]` and
`datetime.fromisoformat(row[0])` are evaluated OUTSIDE the `try` block, so
their failures escape as uncaught exceptions (`Except.error ()`); only the
accesses `row[1]`, `row[2]` and the numeric list parses are protected by
`except (ValueError, IndexError)`, which skips the row. -/
def parse_cadence_row (row : List Cell) : Except Unit (List (ℚ × ℚ)) :=
  match row[0]? with
  | none => Except.error ()
  | some c0 =>
    match c0.asTimestamp with
    | none => Except.error ()
    | some t =>
      match row[1]?, row[2]? with
      | some c1, some c2 =>
        match c1.asIntList, c2.asRatList with
        | some durs, some vals => Except.ok (cadenceRowStep t (durs.zip vals))
        | _, _ => Except.ok []
      | _, _ => Except.ok []

/-- `read_expanded_cadence_data`: `Except.error ()` models an uncaught
exception aborting the whole read; `Except.ok none` is the absent-file (or
no-points) return. -/
def read_expanded_cadence_data (file : Option (List (List Cell))) :
    Except Unit (Option TimeSeriesData) := do
  match file with
  | none => return none
  | some rows =>
    let pointLists ← (rows.drop 1).mapM parse_cadence_row
    let all_points := pointLists.flatten
    if all_points = [] then return none
    else
      let sorted := sortByTs all_points
      return some ⟨sorted.map Prod.fst, sorted.map Prod.snd⟩

/-- `_interpolate_value`: linear interpolation with clamping at both ends and
the zero-width-bracket guard. -/
def interpolate_value (target : ℚ) (data : TimeSeriesData) : Option ℚ :=
  if data.timestamps.isEmpty then none
  else
    let i := bisect_left data.timestamps target
    if i = 0 then some (data.values.getD 0 0)
    else if data.timestamps.length ≤ i then some (data.values.getLastD 0)
    else
      let t0 := data.timestamps.getD (i - 1) 0
      let v0 := data.values.getD (i - 1) 0
      let t1 := data.timestamps.getD i 0
      let v1 := data.values.getD i 0
      if t1 - t0 = 0 then some v0
      else some (v0 + (v1 - v0) * ((target - t0) / (t1 - t0)))

/-- `find_nearest_value`: value of the closer of the two points bracketing the
insertion point, with clamping at both ends; the comparison is strict
(`dt_prev < dt_curr`), so an exact tie falls to the later point. -/
def find_nearest_value (target : ℚ) (data : TimeSeriesData) : Option ℚ :=
  if data.timestamps.isEmpty then none
  else
    let i := bisect_left data.timestamps target
    if i = 0 then some (data.values.getD 0 0)
    else if data.timestamps.length ≤ i then some (data.values.getLastD 0)
    else
      let dt_prev := target - data.timestamps.getD (i - 1) 0
      let dt_curr := data.timestamps.getD i 0 - target
      if dt_prev < dt_curr then some (data.values.getD (i - 1) 0)
      else some (data.values.getD i 0)

/-- `apply_temporal_smoothing`: every value is replaced by the arithmetic mean
of the original values in the centred window
`[t - window/2, t + window/2]`, located by two bisections; an empty window
falls back to the original value. -/
def apply_temporal_smoothing (data : TimeSeriesData) (window_seconds : ℚ) :
    TimeSeriesData :=
  if data.timestamps.isEmpty then data
  else
    let half_window := window_seconds / 2
    let smoothed := (List.range data.timestamps.length).map (fun i =>
      let t := data.timestamps.getD i 0
      let start_idx := bisect_left data.timestamps (t - half_window)
      let end_idx := bisect_right data.timestamps (t + half_window)
      let window_values := (data.values.drop start_idx).take (end_idx - start_idx)
      if window_values = [] then data.values.getD i 0
      else window_values.sum / (window_values.length : ℚ))
    ⟨data.timestamps, smoothed⟩

/-- The same-second de-duplication loop of `create_gpx_for_activity`: a point
is kept iff its whole-second bucket differs from the bucket of the last KEPT
point (`last_ts_int`, initially `None`). -/
def dedupStep : Option ℤ → List (ℚ × ℚ) → List (ℚ × ℚ)
  | _, [] => []
  | last, (dt, hr) :: rest =>
    if some (truncQ dt) = last then dedupStep last rest
    else (dt, hr) :: dedupStep (some (truncQ dt)) rest

/-- The HR segmentation of `create_gpx_for_activity`: the index range
`[bisect_left(ts, start), bisect_right(ts, stop))` of the parallel arrays
(modelled as the corresponding slice of the zipped series), then same-second
de-duplication. -/
def hr_points_in_activity (hr : TimeSeriesData) (start stop : ℚ) :
    List (ℚ × ℚ) :=
  let start_idx := bisect_left hr.timestamps start
  let end_idx := bisect_right hr.timestamps stop
  dedupStep none (((hr.timestamps.zip hr.values).drop start_idx).take (end_idx - start_idx))

/-- The cadence attachment of `create_gpx_for_activity`: take the latest
cadence sample at or before `dt` (via `bisect_right`), attach its value as
`int(...)` only when it is at most 60 seconds old. -/
def cadence_for_point (dt : ℚ) (cadence : TimeSeriesData) : Option ℤ :=
  let idx := bisect_right cadence.timestamps dt
  if 0 < idx then
    let last_cadence_dt := cadence.timestamps.getD (idx - 1) 0
    if dt - last_cadence_dt ≤ 60 then
      some (truncQ (cadence.values.getD (idx - 1) 0))
    else none
  else none

/-- Specification-side formulation of the de-duplication: keep the head, and
keep a later point exactly when its whole-second bucket differs from that of
its immediate predecessor in the list — i.e. the first point of every run of
consecutive same-bucket points. -/
def firstOfRuns (l : List (ℚ × ℚ)) : List (ℚ × ℚ) :=
  match l with
  | [] => []
  | x :: xs =>
    x :: ((xs.zip (x :: xs)).filter
      (fun pq => decide (truncQ pq.1.1 ≠ truncQ pq.2.1))).map Prod.fst

/-- Specification-side description of the cadence deriver's per-record output
(spec §4.2): for each index `i` whose duration is positive, exactly one point
at the interval's END timestamp (anchor plus the cumulative durations through
`i`) carrying rate `values[i]/durations[i]*60`; no point for other
indices. -/
def cadenceSpecPoints (t : ℚ) (pairs : List (ℤ × ℚ)) : List (ℚ × ℚ) :=
  (List.range pairs.length).filterMap (fun i =>
    let dv := pairs.getD i (0, 0)
    if 0 < dv.1 then
      some (t + ((pairs.take (i + 1)).map (fun p => ((p.1 : ℚ)))).sum,
            dv.2 / (dv.1 : ℚ) * 60)
    else none)

/-- Concrete malformed data row for counterexamples: the timestamp cell is
unparseable (`fromisoformat` raises), the numeric cells are fine. -/
def badTsRow : List Cell :=
  [⟨none, none, none⟩, ⟨none, some [10], none⟩, ⟨none, none, some [5]⟩]

/-! Helper lemmas about bisection on sorted lists. -/

/-- On a sorted list, a downward-closed boolean predicate holds exactly on an
initial segment whose length is its `countP`; membership of index `j` in that
segment is equivalent to the predicate holding at `j`. -/
theorem countP_char (q : ℚ → Bool) (hq : ∀ a b : ℚ, a ≤ b → q b = true → q a = true) :
    ∀ (ts : List ℚ), ts.Sorted (· ≤ ·) → ∀ j, j < ts.length →
      (j < ts.countP q ↔ q (ts.getD j 0) = true) := by
  intro ts
  induction ts with
  | nil => intro _ j hj; simp at hj
  | cons x rest ih =>
    intro hs j hj
    obtain ⟨hall, hrest⟩ := List.sorted_cons.mp hs
    by_cases hqx : q x = true
    · rw [List.countP_cons, if_pos hqx]
      match j with
      | 0 => simp [hqx]
      | j + 1 =>
        have hj' : j < rest.length := by simpa using hj
        rw [List.getD_cons_succ]
        rw [show rest.countP q + 1 = rest.countP q + 1 from rfl]
        constructor
        · intro h; exact (ih hrest j hj').mp (by omega)
        · intro h; have := (ih hrest j hj').mpr h; omega
    · have hzero : rest.countP q = 0 := by
        rw [List.countP_eq_zero]
        intro a ha hqa
        exact hqx (hq x a (hall a ha) hqa)
      rw [List.countP_cons, if_neg hqx, hzero]
      match j with
      | 0 => simpa using hqx
      | j + 1 =>
        have hj' : j < rest.length := by simpa using hj
        rw [List.getD_cons_succ]
        have hfalse : ¬ q (rest.getD j 0) = true := by
          have hmem : rest.getD j 0 ∈ rest := by
            rw [List.getD_eq_getElem _ _ hj']
            exact List.getElem_mem hj'
          exact (List.countP_eq_zero.mp hzero) _ hmem
        constructor
        · intro h; exact absurd h (by omega)
        · intro h; exact absurd h hfalse

theorem lt_bisect_left_iff {ts : List ℚ} (hs : ts.Sorted (· ≤ ·)) {x : ℚ}
    {j : ℕ} (hj : j < ts.length) :
    j < bisect_left ts x ↔ ts.getD j 0 < x := by
  have := countP_char (fun y => decide (y < x))
    (fun a b hab hb => by
      simp only [decide_eq_true_eq] at hb ⊢
      exact lt_of_le_of_lt hab hb) ts hs j hj
  simpa [bisect_left] using this

theorem lt_bisect_right_iff {ts : List ℚ} (hs : ts.Sorted (· ≤ ·)) {x : ℚ}
    {j : ℕ} (hj : j < ts.length) :
    j < bisect_right ts x ↔ ts.getD j 0 ≤ x := by
  have := countP_char (fun y => decide (y ≤ x))
    (fun a b hab hb => by
      simp only [decide_eq_true_eq] at hb ⊢
      exact le_trans hab hb) ts hs j hj
  simpa [bisect_right] using this

theorem bisect_left_le_length (ts : List ℚ) (x : ℚ) : bisect_left ts x ≤ ts.length :=
  List.countP_le_length _

theorem bisect_right_le_length (ts : List ℚ) (x : ℚ) : bisect_right ts x ≤ ts.length :=
  List.countP_le_length _

/-- Monotonicity of indexed access on a `≤`-sorted list. -/
theorem sorted_getD_mono {ts : List ℚ} (hs : ts.Sorted (· ≤ ·)) {i j : ℕ}
    (hij : i ≤ j) (hj : j < ts.length) : ts.getD i 0 ≤ ts.getD j 0 := by
  have hi : i < ts.length := lt_of_le_of_lt hij hj
  rw [List.getD_eq_getElem _ _ hi, List.getD_eq_getElem _ _ hj]
  rcases eq_or_lt_of_le hij with h | h
  · subst h; exact le_refl _
  · exact hs.rel_get_of_lt (by simpa using h)

/-- The slice between the two bisection indices of a `≤`-sorted key list
equals the filter by the inclusive window `[a, b]` on the zipped series. -/
theorem slice_zip_eq_filter :
    ∀ (ts : List ℚ) (vs : List ℚ), vs.length = ts.length →
      ts.Sorted (· ≤ ·) → ∀ (a b : ℚ),
      ((ts.zip vs).drop (bisect_left ts a)).take (bisect_right ts b - bisect_left ts a)
        = (ts.zip vs).filter (fun p => decide (a ≤ p.1) && decide (p.1 ≤ b)) := by
  intro ts
  induction ts with
  | nil => intro vs _ _ a b; simp [bisect_left, bisect_right]
  | cons t rest ih =>
    intro vs hlen hs a b
    match vs with
    | [] => simp at hlen
    | v :: vs =>
      have hlen' : vs.length = rest.length := by simpa using hlen
      obtain ⟨hall, hrest⟩ := List.sorted_cons.mp hs
      have hzip : (t :: rest).zip (v :: vs) = (t, v) :: rest.zip vs := rfl
      by_cases hta : t < a
      · have hnta : ¬ a ≤ t := not_le.mpr hta
        rw [hzip]
        rw [show bisect_left (t :: rest) a
              = bisect_left rest a + 1 by
            simp [bisect_left, List.countP_cons, hta]]
        by_cases htb : t ≤ b
        · rw [show bisect_right (t :: rest) b
                = bisect_right rest b + 1 by
              simp [bisect_right, List.countP_cons, htb]]
          rw [List.drop_succ_cons, Nat.succ_sub_succ]
          rw [List.filter_cons_of_neg (by simp [hnta])]
          exact ih vs hlen' hrest a b
        · have hbt : b < t := not_le.mp htb
          have hnone : ∀ y ∈ rest, ¬ (y ≤ b) :=
            fun y hy => not_le.mpr (lt_of_lt_of_le hbt (hall y hy))
          have hbr : bisect_right (t :: rest) b = 0 := by
            simp only [bisect_right, List.countP_cons]
            rw [List.countP_eq_zero.mpr (by
              intro y hy
              simpa using hnone y hy)]
            simp [htb]
          rw [hbr]
          simp only [Nat.zero_sub, List.take_zero]
          rw [eq_comm, List.filter_eq_nil_iff]
          intro p hp
          rcases List.mem_cons.mp hp with h | h
          · subst h; simp [hnta]
          · rcases p with ⟨p1, p2⟩
            have hm : p1 ∈ rest := (List.of_mem_zip h).1
            simp [hnone p1 hm]
      · have hat : a ≤ t := not_lt.mp hta
        have hbl : bisect_left (t :: rest) a = 0 := by
          simp only [bisect_left, List.countP_cons]
          rw [List.countP_eq_zero.mpr (by
            intro y hy
            simpa using not_lt.mpr (le_trans hat (hall y hy)))]
          simp [hta]
        rw [hbl, List.drop_zero, Nat.sub_zero]
        by_cases htb : t ≤ b
        · rw [show bisect_right (t :: rest) b
                = bisect_right rest b + 1 by
              simp [bisect_right, List.countP_cons, htb]]
          rw [hzip, List.take_succ_cons]
          rw [List.filter_cons_of_pos (by simp [hat, htb])]
          have := ih vs hlen' hrest a b
          have hbl' : bisect_left rest a = 0 := by
            simp only [bisect_left]
            exact List.countP_eq_zero.mpr (by
              intro y hy
              simpa using not_lt.mpr (le_trans hat (hall y hy)))
          rw [hbl', List.drop_zero, Nat.sub_zero] at this
          rw [this]
        · have hbt : b < t := not_le.mp htb
          have hnone : ∀ y ∈ rest, ¬ (y ≤ b) :=
            fun y hy => not_le.mpr (lt_of_lt_of_le hbt (hall y hy))
          have hbr : bisect_right (t :: rest) b = 0 := by
            simp only [bisect_right, List.countP_cons]
            rw [List.countP_eq_zero.mpr (by
              intro y hy
              simpa using hnone y hy)]
            simp [htb]
          rw [hbr, List.take_zero]
          rw [eq_comm, List.filter_eq_nil_iff]
          intro p hp
          rw [hzip] at hp
          rcases List.mem_cons.mp hp with h | h
          · subst h; simp [htb]
          · rcases p with ⟨p1, p2⟩
            have hm : p1 ∈ rest := (List.of_mem_zip h).1
            simp [hnone p1 hm]

/-- The running `last_ts_int` of the de-duplication loop always equals the
whole-second bucket of the previous (not necessarily kept) element, so the
loop keeps exactly the points whose bucket differs from their immediate
predecessor's. -/
theorem dedupStep_some_eq :
    ∀ (l : List (ℚ × ℚ)) (x : ℚ × ℚ),
      dedupStep (some (truncQ x.1)) l
        = ((l.zip (x :: l)).filter
            (fun pq => decide (truncQ pq.1.1 ≠ truncQ pq.2.1))).map Prod.fst := by
  intro l
  induction l with
  | nil => intro x; rfl
  | cons c rest ih =>
    intro x
    have hzip : (c :: rest).zip (x :: c :: rest) = (c, x) :: rest.zip (c :: rest) := rfl
    rw [hzip]
    by_cases h : truncQ c.1 = truncQ x.1
    · rw [List.filter_cons_of_neg (by simp [h])]
      show dedupStep (some (truncQ x.1)) (c :: rest) = _
      rw [show dedupStep (some (truncQ x.1)) (c :: rest)
            = dedupStep (some (truncQ x.1)) rest by
          simp [dedupStep, h]]
      rw [← h]
      exact ih c
    · rw [List.filter_cons_of_pos (by simp [h])]
      show dedupStep (some (truncQ x.1)) (c :: rest) = _
      rw [show dedupStep (some (truncQ x.1)) (c :: rest)
            = c :: dedupStep (some (truncQ c.1)) rest by
          simp [dedupStep, h]]
      rw [List.map_cons]
      exact congrArg (c :: ·) (ih c)

/-- Starting the de-duplication loop with `last_ts_int = None` keeps the head
and thereafter the first point of each run of same-bucket points. -/
theorem dedupStep_none_eq (l : List (ℚ × ℚ)) :
    dedupStep none l = firstOfRuns l := by
  match l with
  | [] => rfl
  | x :: xs =>
    show dedupStep none (x :: xs) = _
    rw [show dedupStep none (x :: xs) = x :: dedupStep (some (truncQ x.1)) xs by
      simp [dedupStep]]
    rw [firstOfRuns, dedupStep_some_eq xs x]

theorem expandRow_length (t : ℚ) :
    ∀ l : List (ℤ × ℚ), (expandRow t l).length = l.length := by
  intro l
  induction l generalizing t with
  | nil => rfl
  | cons dv rest ih =>
    rcases dv with ⟨d, v⟩
    simp [expandRow, ih]

theorem zip_eq_zip_take_min :
    ∀ (l₁ : List ℤ) (l₂ : List ℚ),
      l₁.zip l₂
        = (l₁.take (min l₁.length l₂.length)).zip (l₂.take (min l₁.length l₂.length)) := by
  intro l₁
  induction l₁ with
  | nil => intro l₂; simp
  | cons a l₁ ih =>
    intro l₂
    match l₂ with
    | [] => simp
    | b :: l₂ =>
      simp only [List.length_cons, Nat.succ_min_succ, List.take_succ_cons, List.zip_cons_cons]
      exact congrArg ((a, b) :: ·) (ih l₂)

theorem zip_map_fst_snd_self :
    ∀ l : List (ℚ × ℚ), (l.map Prod.fst).zip (l.map Prod.snd) = l := by
  intro l
  induction l with
  | nil => rfl
  | cons p rest ih =>
    rcases p with ⟨a, b⟩
    simp only [List.map_cons, List.zip_cons_cons]
    exact congrArg ((a, b) :: ·) ih

instance : IsTotal (ℚ × ℚ) (fun p q => p.1 ≤ q.1) :=
  ⟨fun a b => le_total a.1 b.1⟩

instance : IsTrans (ℚ × ℚ) (fun p q => p.1 ≤ q.1) :=
  ⟨fun _ _ _ h₁ h₂ => le_trans h₁ h₂⟩

instance : IsAntisymm (ℚ × ℚ) (fun p q => p.1 < q.1) :=
  ⟨fun _ _ h₁ h₂ => absurd h₂ (lt_asymm h₁)⟩

theorem sortByTs_sorted (l : List (ℚ × ℚ)) :
    (sortByTs l).Sorted (fun p q => p.1 ≤ q.1) :=
  List.sorted_insertionSort _ l

theorem sortByTs_perm (l : List (ℚ × ℚ)) : (sortByTs l).Perm l :=
  List.perm_insertionSort _ l

/-- Two lists of points that are permutations of each other, both sorted by
timestamp, coincide as soon as the timestamps are pairwise distinct. -/
theorem eq_of_perm_sorted_nodupFst {l₁ l₂ : List (ℚ × ℚ)} (hp : l₁.Perm l₂)
    (hs₁ : l₁.Sorted (fun p q => p.1 ≤ q.1)) (hs₂ : l₂.Sorted (fun p q => p.1 ≤ q.1))
    (hnd : (l₁.map Prod.fst).Nodup) : l₁ = l₂ := by
  have hmapperm : (l₁.map Prod.fst).Perm (l₂.map Prod.fst) := hp.map _
  have hnd₂ : (l₂.map Prod.fst).Nodup := hmapperm.nodup_iff.mp hnd
  have hpw₁ : l₁.Pairwise (fun p q => p.1 ≠ q.1) := List.pairwise_map.mp hnd
  have hpw₂ : l₂.Pairwise (fun p q => p.1 ≠ q.1) := List.pairwise_map.mp hnd₂
  have hlt₁ : l₁.Sorted (fun p q => p.1 < q.1) :=
    (List.Pairwise.and hs₁ hpw₁).imp (fun h => lt_of_le_of_ne h.1 h.2)
  have hlt₂ : l₂.Sorted (fun p q => p.1 < q.1) :=
    (List.Pairwise.and hs₂ hpw₂).imp (fun h => lt_of_le_of_ne h.1 h.2)
  exact List.eq_of_perm_of_sorted hp hlt₁ hlt₂

/-! Claim theorems. -/

/-- C1: the spec requires that one malformed row never aborts a whole-file
read.  This holds for `read_expanded_data` (whose `_parse_withings_row`
catches `ValueError`/`IndexError`), but `read_expanded_cadence_data`
evaluates `datetime.fromisoformat(row[0])` OUTSIDE its `try` block: on a
cadence file whose first data row has an unparseable timestamp the whole read
raises and aborts, while the run-length decoder on the same rows simply skips
the bad row and returns the remaining point. -/
theorem cadence_read_aborts_on_unparseable_timestamp_row :
    read_expanded_cadence_data (some [mkRow 0 [] [], badTsRow, mkRow 7 [3] [5]])
      = Except.error () ∧
    read_expanded_data (some [mkRow 0 [] [], badTsRow, mkRow 7 [3] [5]])
      = some ⟨[7], [5]⟩ :=
  ⟨rfl, by decide⟩

/-- C5 counterexample: the decoder returns `None` for a file that is present
(`some []`) and not only for an absent file (`none`), so `None` does not
characterise absence: a present-but-empty file is indistinguishable from a
missing one. -/
theorem decoder_none_for_present_empty_file_cex :
    read_expanded_data (some []) = none ∧
    (some ([] : List (List Cell))) ≠ none ∧
    read_expanded_data none = none :=
  ⟨rfl, by decide, rfl⟩

/-- C5 amended: `read_expanded_data` returns `None` exactly when the file is
absent OR the present file decodes to zero points; absence and emptiness
yield the same result, and callers (`main`) indeed treat the two alike
("manquants ou vides"). -/
theorem read_expanded_data_none_iff :
    read_expanded_data none = none ∧
    ∀ rows : List (List Cell),
      (read_expanded_data (some rows) = none ↔ decodePoints (rows.drop 1) = []) := by
  refine ⟨rfl, fun rows => ?_⟩
  show decodeRecords (rows.drop 1) = none ↔ _
  unfold decodeRecords
  by_cases h : decodePoints (rows.drop 1) = [] <;> simp [h]

/-- C6 counterexample: two single-point records with equal timestamps but
different values; swapping them is a permutation of the record stream, yet
the decoded output differs (the sort is stable, so input order among equal
timestamps survives). -/
theorem decode_shuffle_not_identical_cex :
    ([mkRow 0 [3] [1], mkRow 0 [3] [2]]).Perm [mkRow 0 [3] [2], mkRow 0 [3] [1]] ∧
    decodeRecords [mkRow 0 [3] [1], mkRow 0 [3] [2]] = some ⟨[0, 0], [1, 2]⟩ ∧
    decodeRecords [mkRow 0 [3] [2], mkRow 0 [3] [1]] = some ⟨[0, 0], [2, 1]⟩ :=
  ⟨by decide, by decide, by decide⟩

/-- C10: a row whose duration list and value list have unequal lengths `N`,
`M` is not rejected by either decoder: it decodes exactly as if both lists
were truncated to length `min N M` (surplus silently discarded), the
run-length parser emits `min N M` points for it, and the cadence reader
accepts it (`Except.ok`). -/
theorem unequal_lists_truncated_to_min :
    ∀ (t : ℚ) (durs : List ℤ) (vals : List ℚ),
      (parse_withings_row (mkRow t durs vals)).length = min durs.length vals.length ∧
      parse_withings_row (mkRow t durs vals)
        = parse_withings_row
            (mkRow t (durs.take (min durs.length vals.length))
              (vals.take (min durs.length vals.length))) ∧
      parse_cadence_row (mkRow t durs vals)
        = parse_cadence_row
            (mkRow t (durs.take (min durs.length vals.length))
              (vals.take (min durs.length vals.length))) ∧
      ∃ pts, parse_cadence_row (mkRow t durs vals) = Except.ok pts := by
  intro t durs vals
  have hrow : parse_withings_row (mkRow t durs vals) = expandRow t (durs.zip vals) := rfl
  have hrow' : parse_withings_row
      (mkRow t (durs.take (min durs.length vals.length))
        (vals.take (min durs.length vals.length)))
      = expandRow t ((durs.take (min durs.length vals.length)).zip
          (vals.take (min durs.length vals.length))) := rfl
  have hrowC : parse_cadence_row (mkRow t durs vals)
      = Except.ok (cadenceRowStep t (durs.zip vals)) := rfl
  have hrowC' : parse_cadence_row
      (mkRow t (durs.take (min durs.length vals.length))
        (vals.take (min durs.length vals.length)))
      = Except.ok (cadenceRowStep t ((durs.take (min durs.length vals.length)).zip
          (vals.take (min durs.length vals.length)))) := rfl
  refine ⟨?_, ?_, ?_, ⟨_, hrowC⟩⟩
  · rw [hrow, expandRow_length, List.length_zip]
  · rw [hrow, hrow', ← zip_eq_zip_take_min]
  · rw [hrowC, hrowC', ← zip_eq_zip_take_min]

theorem cadenceSpecPoints_nil (t : ℚ) : cadenceSpecPoints t [] = [] := rfl

theorem cadenceSpecPoints_cons (t : ℚ) (d : ℤ) (v : ℚ) (rest : List (ℤ × ℚ)) :
    cadenceSpecPoints t ((d, v) :: rest)
      = (if 0 < d then [(t + (d : ℚ), v / (d : ℚ) * 60)] else [])
          ++ cadenceSpecPoints (t + (d : ℚ)) rest := by
  unfold cadenceSpecPoints
  rw [List.length_cons, List.range_succ_eq_map, List.filterMap_cons, List.filterMap_map]
  have hfun :
      ((fun i =>
          let dv := ((d, v) :: rest).getD i (0, 0)
          if 0 < dv.1 then
            some (t + ((((d, v) :: rest).take (i + 1)).map (fun p => ((p.1 : ℚ)))).sum,
                  dv.2 / (dv.1 : ℚ) * 60)
          else none) ∘ Nat.succ)
        = (fun i =>
          let dv := rest.getD i (0, 0)
          if 0 < dv.1 then
            some ((t + (d : ℚ)) + ((rest.take (i + 1)).map (fun p => ((p.1 : ℚ)))).sum,
                  dv.2 / (dv.1 : ℚ) * 60)
          else none) := by
    funext i
    simp only [Function.comp_apply, Nat.succ_eq_add_one, List.getD_cons_succ,
      List.take_succ_cons, List.map_cons, List.sum_cons, add_assoc]
  rw [hfun]
  by_cases h : 0 < d
  · simp only [List.getD_cons_zero, h, if_true, List.take_succ_cons, List.take_zero,
      List.map_cons, List.map_nil, List.sum_cons, List.sum_nil, add_zero,
      List.singleton_append]
  · simp only [List.getD_cons_zero, h, if_false, List.nil_append]

/-- C3: for every record, the cadence deriver's interval walk emits exactly
one point per positive-duration interval — carrying rate
`value/duration*60` and attributed to the interval's END timestamp (anchor
plus the cumulative durations through that interval) — and no point for a
zero-duration interval, the cursor still advancing past it; in particular a
well-formed row with anchor `t`, durations `[10]`, values `[5]` yields
exactly the point `(t + 10, 30)`. -/
theorem cadence_rates_at_interval_end :
    (∀ (t : ℚ) (pairs : List (ℤ × ℚ)),
      cadenceRowStep t pairs = cadenceSpecPoints t pairs) ∧
    (∀ t : ℚ, parse_cadence_row (mkRow t [10] [5]) = Except.ok [(t + 10, 30)]) := by
  constructor
  · intro t pairs
    induction pairs generalizing t with
    | nil => rfl
    | cons dv rest ih =>
      rcases dv with ⟨d, v⟩
      rw [cadenceSpecPoints_cons, ← ih (t + (d : ℚ))]
      by_cases h : 0 < d
      · simp [cadenceRowStep, h]
      · simp [cadenceRowStep, h]
  · intro t
    have h : parse_cadence_row (mkRow t [10] [5])
        = Except.ok (cadenceRowStep t [(10, 5)]) := rfl
    rw [h]
    have h2 : cadenceRowStep t [(10, 5)]
        = [(t + ((10 : ℤ) : ℚ), 5 / ((10 : ℤ) : ℚ) * 60)] := by
      simp [cadenceRowStep]
    rw [h2]
    norm_num

/-- C2: for a sorted cadence series, a cadence value is attached to the track
point at HR time `T` if and only if there is a latest cadence sample at or
before `T` and `T` minus that sample's timestamp is at most 60 seconds. -/
theorem cadence_attached_iff_within_60s (cad : TimeSeriesData)
    (hs : cad.timestamps.Sorted (· ≤ ·)) (T : ℚ) :
    (∃ v, cadence_for_point T cad = some v) ↔
      ∃ t, t ∈ cad.timestamps ∧ t ≤ T ∧
        (∀ u ∈ cad.timestamps, u ≤ T → u ≤ t) ∧ T - t ≤ 60 := by
  have hlen := bisect_right_le_length cad.timestamps T
  by_cases hidx : 0 < bisect_right cad.timestamps T
  · have hidx1 : bisect_right cad.timestamps T - 1 < cad.timestamps.length := by omega
    have hle : cad.timestamps.getD (bisect_right cad.timestamps T - 1) 0 ≤ T :=
      (lt_bisect_right_iff hs hidx1).mp (by omega)
    have hmem : cad.timestamps.getD (bisect_right cad.timestamps T - 1) 0
        ∈ cad.timestamps := by
      rw [List.getD_eq_getElem _ _ hidx1]
      exact List.getElem_mem hidx1
    have hmax : ∀ u ∈ cad.timestamps, u ≤ T →
        u ≤ cad.timestamps.getD (bisect_right cad.timestamps T - 1) 0 := by
      intro u hu huT
      obtain ⟨j, hj, hju⟩ := List.mem_iff_getElem.mp hu
      have hjlt : j < bisect_right cad.timestamps T :=
        (lt_bisect_right_iff hs hj).mpr (by rw [List.getD_eq_getElem _ _ hj, hju]; exact huT)
      have hmono := sorted_getD_mono hs
        (show j ≤ bisect_right cad.timestamps T - 1 by omega) hidx1
      rw [List.getD_eq_getElem _ _ hj, hju] at hmono
      exact hmono
    constructor
    · rintro ⟨v, hv⟩
      refine ⟨cad.timestamps.getD (bisect_right cad.timestamps T - 1) 0,
        hmem, hle, hmax, ?_⟩
      by_contra h60
      simp only [cadence_for_point] at hv
      rw [if_pos hidx, if_neg h60] at hv
      exact Option.noConfusion hv
    · rintro ⟨t, htmem, htT, htmax, ht60⟩
      have h1 : t ≤ cad.timestamps.getD (bisect_right cad.timestamps T - 1) 0 :=
        hmax t htmem htT
      have h2 : cad.timestamps.getD (bisect_right cad.timestamps T - 1) 0 ≤ t :=
        htmax _ hmem hle
      have h60 : T - cad.timestamps.getD (bisect_right cad.timestamps T - 1) 0 ≤ 60 := by
        rw [le_antisymm h2 h1]
        exact ht60
      refine ⟨truncQ (cad.values.getD (bisect_right cad.timestamps T - 1) 0), ?_⟩
      simp only [cadence_for_point]
      rw [if_pos hidx, if_pos h60]
  · constructor
    · rintro ⟨v, hv⟩
      simp [cadence_for_point, Nat.eq_zero_of_not_pos hidx] at hv
    · rintro ⟨t, htmem, htT, -, -⟩
      obtain ⟨j, hj, hju⟩ := List.mem_iff_getElem.mp htmem
      have : j < bisect_right cad.timestamps T :=
        (lt_bisect_right_iff hs hj).mpr (by rw [List.getD_eq_getElem _ _ hj, hju]; exact htT)
      omega

/-- C2 witness: a single cadence sample at `t = 100` with value `30`; at HR
time `T = 159` (59 seconds later) the attachment condition is met. -/
theorem cadence_attached_iff_within_60s_witness :
    (∃ v, cadence_for_point 159 ⟨[100], [30]⟩ = some v) ↔
      ∃ t, t ∈ ([100] : List ℚ) ∧ t ≤ 159 ∧
        (∀ u ∈ ([100] : List ℚ), u ≤ 159 → u ≤ t) ∧ (159 : ℚ) - t ≤ 60 :=
  cadence_attached_iff_within_60s ⟨[100], [30]⟩ (by decide) 159

/-- C4 counterexample: series with timestamps `[0, 10]` and values `[1, 2]`;
the query `T = 5` lies strictly between the endpoints and is exactly
equidistant from both, yet `find_nearest_value` returns `2`, the value of the
LATER point, not `1` as the claim's tie rule states. -/
theorem nearest_value_tie_cex :
    (0 : ℚ) < 5 ∧ (5 : ℚ) < 10 ∧ (5 : ℚ) - 0 = 10 - 5 ∧
    find_nearest_value 5 ⟨[0, 10], [1, 2]⟩ = some 2 ∧ (2 : ℚ) ≠ 1 := by
  refine ⟨by norm_num, by norm_num, by norm_num, ?_, by norm_num⟩
  norm_num [find_nearest_value, bisect_left, List.countP_cons]

/-- C4 amended: for a sorted series and a query `T` bracketed by the samples
at indices `i-1 < i` (so `ts[i-1] < T ≤ ts[i]`), `find_nearest_value` returns
the value of whichever bracketing point is strictly closer in absolute time
distance, and on an exact tie it returns the value of the LATER point (the
one at or after `T`), not the earlier one. -/
theorem nearest_value_closer_tie_later (data : TimeSeriesData)
    (hs : data.timestamps.Sorted (· ≤ ·)) (T : ℚ) (i : ℕ) (hi0 : 0 < i)
    (hilen : i < data.timestamps.length)
    (hlow : data.timestamps.getD (i - 1) 0 < T)
    (hhigh : T ≤ data.timestamps.getD i 0) :
    (T - data.timestamps.getD (i - 1) 0 < data.timestamps.getD i 0 - T →
      find_nearest_value T data = some (data.values.getD (i - 1) 0)) ∧
    (data.timestamps.getD i 0 - T < T - data.timestamps.getD (i - 1) 0 →
      find_nearest_value T data = some (data.values.getD i 0)) ∧
    (T - data.timestamps.getD (i - 1) 0 = data.timestamps.getD i 0 - T →
      find_nearest_value T data = some (data.values.getD i 0)) := by
  have hble : bisect_left data.timestamps T = i := by
    have h1 : i - 1 < bisect_left data.timestamps T :=
      (lt_bisect_left_iff hs (show i - 1 < data.timestamps.length by omega)).mpr hlow
    have h2 : ¬ (i < bisect_left data.timestamps T) := by
      intro h
      exact absurd ((lt_bisect_left_iff hs hilen).mp h) (not_lt.mpr hhigh)
    omega
  have hne : ¬ data.timestamps.isEmpty = true := by
    intro h
    rw [List.isEmpty_iff.mp h] at hilen
    simp at hilen
  have hi0' : ¬ (bisect_left data.timestamps T = 0) := by omega
  have hlen' : ¬ (data.timestamps.length ≤ bisect_left data.timestamps T) := by omega
  refine ⟨fun hcmp => ?_, fun hcmp => ?_, fun hcmp => ?_⟩
  · simp only [find_nearest_value]
    rw [if_neg hne, if_neg hi0', if_neg hlen', hble, if_pos hcmp]
  · simp only [find_nearest_value]
    rw [if_neg hne, if_neg hi0', if_neg hlen', hble,
      if_neg (show ¬ (T - data.timestamps.getD (i - 1) 0
        < data.timestamps.getD i 0 - T) from not_lt.mpr (le_of_lt hcmp))]
  · simp only [find_nearest_value]
    rw [if_neg hne, if_neg hi0', if_neg hlen', hble,
      if_neg (show ¬ (T - data.timestamps.getD (i - 1) 0
        < data.timestamps.getD i 0 - T) by rw [hcmp]; exact lt_irrefl _)]

/-- C4 witness: the amended theorem applied to the series `([0, 10], [1, 2])`
at `T = 3`, bracketed by indices `0` and `1`. -/
theorem nearest_value_closer_tie_later_witness :
    ((3 : ℚ) - (TimeSeriesData.mk [0, 10] [1, 2]).timestamps.getD (1 - 1) 0
        < (TimeSeriesData.mk [0, 10] [1, 2]).timestamps.getD 1 0 - 3 →
      find_nearest_value 3 ⟨[0, 10], [1, 2]⟩
        = some ((TimeSeriesData.mk [0, 10] [1, 2]).values.getD (1 - 1) 0)) ∧
    ((TimeSeriesData.mk [0, 10] [1, 2]).timestamps.getD 1 0 - 3
        < (3 : ℚ) - (TimeSeriesData.mk [0, 10] [1, 2]).timestamps.getD (1 - 1) 0 →
      find_nearest_value 3 ⟨[0, 10], [1, 2]⟩
        = some ((TimeSeriesData.mk [0, 10] [1, 2]).values.getD 1 0)) ∧
    ((3 : ℚ) - (TimeSeriesData.mk [0, 10] [1, 2]).timestamps.getD (1 - 1) 0
        = (TimeSeriesData.mk [0, 10] [1, 2]).timestamps.getD 1 0 - 3 →
      find_nearest_value 3 ⟨[0, 10], [1, 2]⟩
        = some ((TimeSeriesData.mk [0, 10] [1, 2]).values.getD 1 0)) :=
  nearest_value_closer_tie_later ⟨[0, 10], [1, 2]⟩ (by decide) 3 1
    (by decide) (by decide) (by decide) (by decide)

/-- C9: linear interpolation at a timestamp `T` that occurs in a sorted
series returns exactly a value stored at `T` (the one at `T`'s first
occurrence); this covers the first and last timestamps and duplicated
adjacent timestamps. -/
theorem interpolate_at_sample_timestamp (data : TimeSeriesData)
    (hs : data.timestamps.Sorted (· ≤ ·))
    (_hlen : data.values.length = data.timestamps.length)
    (T : ℚ) (hT : T ∈ data.timestamps) :
    ∃ i, ∃ _ : i < data.timestamps.length,
      data.timestamps.getD i 0 = T ∧
      interpolate_value T data = some (data.values.getD i 0) := by
  obtain ⟨j, hj, hjT⟩ := List.mem_iff_getElem.mp hT
  have hile : bisect_left data.timestamps T ≤ j := by
    by_contra h
    have := (lt_bisect_left_iff hs hj).mp (not_le.mp h)
    rw [List.getD_eq_getElem _ _ hj, hjT] at this
    exact lt_irrefl _ this
  have hilen : bisect_left data.timestamps T < data.timestamps.length :=
    lt_of_le_of_lt hile hj
  have hgeT : T ≤ data.timestamps.getD (bisect_left data.timestamps T) 0 := by
    by_contra h
    have := (lt_bisect_left_iff hs hilen).mpr (not_le.mp h)
    omega
  have hleT : data.timestamps.getD (bisect_left data.timestamps T) 0 ≤ T := by
    have := sorted_getD_mono hs hile hj
    rw [List.getD_eq_getElem _ _ hj, hjT] at this
    exact this
  have heq : data.timestamps.getD (bisect_left data.timestamps T) 0 = T :=
    le_antisymm hleT hgeT
  have hne : ¬ data.timestamps.isEmpty = true := by
    intro h
    rw [List.isEmpty_iff.mp h] at hj
    simp at hj
  refine ⟨bisect_left data.timestamps T, hilen, heq, ?_⟩
  by_cases h0 : bisect_left data.timestamps T = 0
  · simp only [interpolate_value]
    rw [if_neg hne, if_pos h0, h0]
  · have hlen' : ¬ (data.timestamps.length ≤ bisect_left data.timestamps T) :=
      not_le.mpr hilen
    have hprev : data.timestamps.getD (bisect_left data.timestamps T - 1) 0 < T :=
      (lt_bisect_left_iff hs
        (show bisect_left data.timestamps T - 1 < data.timestamps.length by omega)).mp
        (by omega)
    have hdne : ¬ (data.timestamps.getD (bisect_left data.timestamps T) 0
        - data.timestamps.getD (bisect_left data.timestamps T - 1) 0 = 0) := by
      rw [heq]
      intro h
      rw [sub_eq_zero] at h
      linarith [hprev]
    simp only [interpolate_value]
    rw [if_neg hne, if_neg h0, if_neg hlen', if_neg hdne]
    congr 1
    rw [heq]
    have hfrac : (T - data.timestamps.getD (bisect_left data.timestamps T - 1) 0)
        / (T - data.timestamps.getD (bisect_left data.timestamps T - 1) 0) = 1 := by
      apply div_self
      intro h
      rw [sub_eq_zero] at h
      linarith [hprev]
    rw [hfrac]
    ring

/-- C9 witness: the series `([0, 5, 5, 9], [1, 2, 3, 4])` — with duplicated
timestamp `5` — queried at the sample timestamp `T = 5`. -/
theorem interpolate_at_sample_timestamp_witness :
    ∃ i, ∃ _ : i < (TimeSeriesData.mk [0, 5, 5, 9] [1, 2, 3, 4]).timestamps.length,
      (TimeSeriesData.mk [0, 5, 5, 9] [1, 2, 3, 4]).timestamps.getD i 0 = 5 ∧
      interpolate_value 5 ⟨[0, 5, 5, 9], [1, 2, 3, 4]⟩
        = some ((TimeSeriesData.mk [0, 5, 5, 9] [1, 2, 3, 4]).values.getD i 0) :=
  interpolate_at_sample_timestamp ⟨[0, 5, 5, 9], [1, 2, 3, 4]⟩
    (by decide) (by decide) 5 (by decide)

/-- C7: for a sorted HR series, the activity segmenter selects exactly the
points whose timestamp lies in `[start, stop]` (inclusive at both bounds)
and then keeps only the first point of each run of consecutive points
sharing the same whole-second bucket (truncation of the timestamp),
preserving temporal order — so of two samples in the same whole second only
the first survives. -/
theorem activity_window_filter_then_dedup (hr : TimeSeriesData)
    (hs : hr.timestamps.Sorted (· ≤ ·))
    (hlen : hr.values.length = hr.timestamps.length) (start stop : ℚ) :
    hr_points_in_activity hr start stop
      = firstOfRuns ((hr.timestamps.zip hr.values).filter
          (fun p => decide (start ≤ p.1) && decide (p.1 ≤ stop))) := by
  simp only [hr_points_in_activity]
  rw [slice_zip_eq_filter hr.timestamps hr.values hlen hs start stop, dedupStep_none_eq]

/-- C7 witness: HR series `([0, 1/2, 1], [7, 8, 9])` over the window
`[0, 1]`: the samples at `0` and `1/2` share whole-second bucket `0`, so only
the first of them survives, together with the sample at `1`. -/
theorem activity_window_filter_then_dedup_witness :
    hr_points_in_activity ⟨[0, ⟨1, 2, by decide, by decide⟩, 1], [7, 8, 9]⟩ 0 1
      = firstOfRuns
          (((TimeSeriesData.mk [0, ⟨1, 2, by decide, by decide⟩, 1] [7, 8, 9]).timestamps.zip
              (TimeSeriesData.mk [0, ⟨1, 2, by decide, by decide⟩, 1] [7, 8, 9]).values).filter
            (fun p => decide ((0 : ℚ) ≤ p.1) && decide (p.1 ≤ 1))) :=
  activity_window_filter_then_dedup ⟨[0, ⟨1, 2, by decide, by decide⟩, 1], [7, 8, 9]⟩
    (by decide) (by decide) 0 1

theorem apply_temporal_smoothing_eq (data : TimeSeriesData) (w : ℚ)
    (hne : data.timestamps ≠ []) :
    apply_temporal_smoothing data w
      = ⟨data.timestamps,
          (List.range data.timestamps.length).map (fun i =>
            let t := data.timestamps.getD i 0
            let start_idx := bisect_left data.timestamps (t - w / 2)
            let end_idx := bisect_right data.timestamps (t + w / 2)
            let window_values := (data.values.drop start_idx).take (end_idx - start_idx)
            if window_values = [] then data.values.getD i 0
            else window_values.sum / (window_values.length : ℚ))⟩ := by
  simp only [apply_temporal_smoothing]
  rw [if_neg (by simp [hne])]

theorem apply_temporal_smoothing_values (data : TimeSeriesData) (w : ℚ)
    (hne : data.timestamps ≠ []) :
    (apply_temporal_smoothing data w).values
      = (List.range data.timestamps.length).map (fun i =>
          let t := data.timestamps.getD i 0
          let start_idx := bisect_left data.timestamps (t - w / 2)
          let end_idx := bisect_right data.timestamps (t + w / 2)
          let window_values := (data.values.drop start_idx).take (end_idx - start_idx)
          if window_values = [] then data.values.getD i 0
          else window_values.sum / (window_values.length : ℚ)) := by
  rw [apply_temporal_smoothing_eq data w hne]

theorem apply_temporal_smoothing_timestamps (data : TimeSeriesData) (w : ℚ)
    (hne : data.timestamps ≠ []) :
    (apply_temporal_smoothing data w).timestamps = data.timestamps := by
  rw [apply_temporal_smoothing_eq data w hne]

theorem getD_range_map (n : ℕ) (f : ℕ → ℚ) (i : ℕ) (hi : i < n) :
    ((List.range n).map f).getD i 0 = f i := by
  have h : i < ((List.range n).map f).length := by simpa using hi
  rw [List.getD_eq_getElem _ _ h, List.getElem_map, List.getElem_range]

/-- C8: with a 10-second window, smoothing a sorted non-empty series yields a
series with the same timestamp list and cardinality, where each output value
is the arithmetic mean of the ORIGINAL values whose timestamps lie in the
centred window `[tᵢ - 5, tᵢ + 5]`; consequently a series of constant value is
mapped to itself. -/
theorem smoothing_is_windowed_mean (data : TimeSeriesData)
    (hs : data.timestamps.Sorted (· ≤ ·))
    (hlen : data.values.length = data.timestamps.length)
    (hne : data.timestamps ≠ []) :
    (apply_temporal_smoothing data 10).timestamps = data.timestamps ∧
    (apply_temporal_smoothing data 10).values.length = data.timestamps.length ∧
    (∀ i, i < data.timestamps.length →
      (apply_temporal_smoothing data 10).values.getD i 0
        = (((data.timestamps.zip data.values).filter
              (fun p => decide (data.timestamps.getD i 0 - 5 ≤ p.1)
                && decide (p.1 ≤ data.timestamps.getD i 0 + 5))).map Prod.snd).sum
          / ((((data.timestamps.zip data.values).filter
              (fun p => decide (data.timestamps.getD i 0 - 5 ≤ p.1)
                && decide (p.1 ≤ data.timestamps.getD i 0 + 5))).map Prod.snd).length : ℚ)) ∧
    (∀ c : ℚ, (∀ v ∈ data.values, v = c) →
      apply_temporal_smoothing data 10 = data) := by
  have h52 : (10 : ℚ) / 2 = 5 := by norm_num
  have hwinvals : ∀ i, i < data.timestamps.length →
      ((data.values.drop
          (bisect_left data.timestamps (data.timestamps.getD i 0 - 10 / 2))).take
        (bisect_right data.timestamps (data.timestamps.getD i 0 + 10 / 2)
          - bisect_left data.timestamps (data.timestamps.getD i 0 - 10 / 2)))
      = ((data.timestamps.zip data.values).filter
          (fun p => decide (data.timestamps.getD i 0 - 5 ≤ p.1)
            && decide (p.1 ≤ data.timestamps.getD i 0 + 5))).map Prod.snd := by
    intro i hi
    rw [h52]
    have hz := slice_zip_eq_filter data.timestamps data.values hlen hs
      (data.timestamps.getD i 0 - 5) (data.timestamps.getD i 0 + 5)
    have hmap := congrArg (List.map Prod.snd) hz
    rw [List.map_take, List.map_drop, List.map_snd_zip _ _ (le_of_eq hlen)] at hmap
    exact hmap
  have hmemw : ∀ i, i < data.timestamps.length →
      data.values.getD i 0
        ∈ ((data.timestamps.zip data.values).filter
            (fun p => decide (data.timestamps.getD i 0 - 5 ≤ p.1)
              && decide (p.1 ≤ data.timestamps.getD i 0 + 5))).map Prod.snd := by
    intro i hi
    have hiv : i < data.values.length := by omega
    have hizip : i < (data.timestamps.zip data.values).length := by
      simp only [List.length_zip]
      omega
    refine List.mem_map.mpr
      ⟨(data.timestamps.getD i 0, data.values.getD i 0), ?_, rfl⟩
    apply List.mem_filter.mpr
    refine ⟨?_, ?_⟩
    · have hzipel : (data.timestamps.zip data.values)[i]
          = (data.timestamps[i], data.values[i]) := List.getElem_zip
      rw [List.getD_eq_getElem _ _ hi, List.getD_eq_getElem _ _ hiv, ← hzipel]
      exact List.getElem_mem hizip
    · simp only [Bool.and_eq_true, decide_eq_true_eq]
      constructor <;> linarith
  have hval : ∀ i, i < data.timestamps.length →
      (apply_temporal_smoothing data 10).values.getD i 0
        = (((data.timestamps.zip data.values).filter
              (fun p => decide (data.timestamps.getD i 0 - 5 ≤ p.1)
                && decide (p.1 ≤ data.timestamps.getD i 0 + 5))).map Prod.snd).sum
          / ((((data.timestamps.zip data.values).filter
              (fun p => decide (data.timestamps.getD i 0 - 5 ≤ p.1)
                && decide (p.1 ≤ data.timestamps.getD i 0 + 5))).map Prod.snd).length : ℚ) := by
    intro i hi
    rw [apply_temporal_smoothing_values data 10 hne, getD_range_map _ _ _ hi]
    simp only []
    rw [hwinvals i hi]
    rw [if_neg (List.ne_nil_of_mem (hmemw i hi))]
  refine ⟨apply_temporal_smoothing_timestamps data 10 hne, ?_, hval, ?_⟩
  · rw [apply_temporal_smoothing_values data 10 hne]
    simp
  · intro c hc
    have hvals : (apply_temporal_smoothing data 10).values = data.values := by
      apply List.ext_getElem
      · rw [apply_temporal_smoothing_values data 10 hne]
        simp [hlen]
      · intro i h1 h2
        have hi : i < data.timestamps.length := by
          rw [apply_temporal_smoothing_values data 10 hne] at h1
          simpa using h1
        have hiv : i < data.values.length := by omega
        rw [← List.getD_eq_getElem ((apply_temporal_smoothing data 10).values) 0 h1,
          ← List.getD_eq_getElem data.values 0 h2]
        rw [hval i hi]
        have hallc : ∀ x ∈ ((data.timestamps.zip data.values).filter
            (fun p => decide (data.timestamps.getD i 0 - 5 ≤ p.1)
              && decide (p.1 ≤ data.timestamps.getD i 0 + 5))).map Prod.snd, x = c := by
          intro x hx
          obtain ⟨p, hp, hps⟩ := List.mem_map.mp hx
          have hpz := (List.mem_filter.mp hp).1
          rcases p with ⟨pt, pv⟩
          have hpv : pv ∈ data.values := (List.of_mem_zip hpz).2
          rw [← hps]
          exact hc pv hpv
        have hnonempty := List.ne_nil_of_mem (hmemw i hi)
        have hlen0 : (((data.timestamps.zip data.values).filter
            (fun p => decide (data.timestamps.getD i 0 - 5 ≤ p.1)
              && decide (p.1 ≤ data.timestamps.getD i 0 + 5))).map Prod.snd).length ≠ 0 := by
          intro h
          exact hnonempty (List.eq_nil_of_length_eq_zero h)
        have hcast : ((((data.timestamps.zip data.values).filter
            (fun p => decide (data.timestamps.getD i 0 - 5 ≤ p.1)
              && decide (p.1 ≤ data.timestamps.getD i 0 + 5))).map Prod.snd).length : ℚ) ≠ 0 :=
          Nat.cast_ne_zero.mpr hlen0
        rw [List.sum_eq_card_nsmul _ c hallc, nsmul_eq_mul, mul_comm, mul_div_assoc,
          div_self hcast, mul_one]
        rw [List.getD_eq_getElem _ _ hiv]
        exact (hc _ (List.getElem_mem hiv)).symm
    have hfinal : apply_temporal_smoothing data 10
        = ⟨(apply_temporal_smoothing data 10).timestamps,
           (apply_temporal_smoothing data 10).values⟩ := rfl
    rw [hfinal, apply_temporal_smoothing_timestamps data 10 hne, hvals]

/-- C8 witness: the spec's own scenario — three points one second apart, all
valued `5`, smoothed with the 10-second window. -/
theorem smoothing_is_windowed_mean_witness :
    (apply_temporal_smoothing ⟨[0, 1, 2], [5, 5, 5]⟩ 10).timestamps
        = ([0, 1, 2] : List ℚ) ∧
    (apply_temporal_smoothing ⟨[0, 1, 2], [5, 5, 5]⟩ 10).values.length
        = ([0, 1, 2] : List ℚ).length ∧
    (∀ i, i < ([0, 1, 2] : List ℚ).length →
      (apply_temporal_smoothing ⟨[0, 1, 2], [5, 5, 5]⟩ 10).values.getD i 0
        = (((([0, 1, 2] : List ℚ).zip ([5, 5, 5] : List ℚ)).filter
              (fun p => decide (([0, 1, 2] : List ℚ).getD i 0 - 5 ≤ p.1)
                && decide (p.1 ≤ ([0, 1, 2] : List ℚ).getD i 0 + 5))).map Prod.snd).sum
          / ((((([0, 1, 2] : List ℚ).zip ([5, 5, 5] : List ℚ)).filter
              (fun p => decide (([0, 1, 2] : List ℚ).getD i 0 - 5 ≤ p.1)
                && decide (p.1 ≤ ([0, 1, 2] : List ℚ).getD i 0 + 5))).map Prod.snd).length : ℚ)) ∧
    (∀ c : ℚ, (∀ v ∈ ([5, 5, 5] : List ℚ), v = c) →
      apply_temporal_smoothing ⟨[0, 1, 2], [5, 5, 5]⟩ 10 = ⟨[0, 1, 2], [5, 5, 5]⟩) :=
  smoothing_is_windowed_mean ⟨[0, 1, 2], [5, 5, 5]⟩ (by decide) (by decide) (by decide)

theorem decodeRecords_components {recs : List (List Cell)} {ts vals : List ℚ}
    (h : decodeRecords recs = some ⟨ts, vals⟩) :
    ts = (sortByTs (decodePoints recs)).map Prod.fst ∧
    vals = (sortByTs (decodePoints recs)).map Prod.snd := by
  unfold decodeRecords at h
  by_cases hnil : decodePoints recs = []
  · rw [if_pos hnil] at h
    exact Option.noConfusion h
  · rw [if_neg hnil] at h
    have := Option.some.inj h
    rw [TimeSeriesData.mk.injEq] at this
    exact ⟨this.1.symm, this.2.symm⟩

/-- C6 amended: the decoder's output is always sorted non-decreasing by
timestamp, and permuting the input records permutes the decoded point
multiset; the output is IDENTICAL under shuffling whenever no two decoded
points share a timestamp, but (see the counterexample) equal timestamps with
different values preserve input order, so full shuffle-invariance fails. -/
theorem decode_sorted_and_shuffle_perm (records records' : List (List Cell))
    (hperm : records.Perm records') :
    (∀ ts vals, decodeRecords records = some ⟨ts, vals⟩ → ts.Sorted (· ≤ ·)) ∧
    (∀ ts vals ts' vals',
      decodeRecords records = some ⟨ts, vals⟩ →
      decodeRecords records' = some ⟨ts', vals'⟩ →
      (ts.zip vals).Perm (ts'.zip vals') ∧
      (ts.Nodup → ts = ts' ∧ vals = vals')) := by
  have hpts : (decodePoints records).Perm (decodePoints records') := by
    unfold decodePoints
    exact (hperm.map _).flatten
  constructor
  · intro ts vals h
    obtain ⟨hts, -⟩ := decodeRecords_components h
    rw [hts]
    exact List.pairwise_map.mpr (sortByTs_sorted _)
  · intro ts vals ts' vals' h h'
    obtain ⟨hts, hvals⟩ := decodeRecords_components h
    obtain ⟨hts', hvals'⟩ := decodeRecords_components h'
    have hz : ts.zip vals = sortByTs (decodePoints records) := by
      rw [hts, hvals]
      exact zip_map_fst_snd_self _
    have hz' : ts'.zip vals' = sortByTs (decodePoints records') := by
      rw [hts', hvals']
      exact zip_map_fst_snd_self _
    have hp : (ts.zip vals).Perm (ts'.zip vals') := by
      rw [hz, hz']
      exact (sortByTs_perm _).trans (hpts.trans (sortByTs_perm _).symm)
    refine ⟨hp, fun hnd => ?_⟩
    have hnd1 : ((sortByTs (decodePoints records)).map Prod.fst).Nodup := by
      rw [← hts]
      exact hnd
    have heq : sortByTs (decodePoints records) = sortByTs (decodePoints records') := by
      apply eq_of_perm_sorted_nodupFst _ (sortByTs_sorted _) (sortByTs_sorted _) hnd1
      rw [← hz, ← hz']
      exact hp
    exact ⟨by rw [hts, hts', heq], by rw [hvals, hvals', heq]⟩

/-- C6 witness: two records with distinct timestamps, presented in both
orders. -/
theorem decode_sorted_and_shuffle_perm_witness :
    (∀ ts vals,
      decodeRecords [mkRow 0 [3] [1], mkRow 10 [3] [2]] = some ⟨ts, vals⟩ →
      ts.Sorted (· ≤ ·)) ∧
    (∀ ts vals ts' vals',
      decodeRecords [mkRow 0 [3] [1], mkRow 10 [3] [2]] = some ⟨ts, vals⟩ →
      decodeRecords [mkRow 10 [3] [2], mkRow 0 [3] [1]] = some ⟨ts', vals'⟩ →
      (ts.zip vals).Perm (ts'.zip vals') ∧
      (ts.Nodup → ts = ts' ∧ vals = vals')) :=
  decode_sorted_and_shuffle_perm [mkRow 0 [3] [1], mkRow 10 [3] [2]]
    [mkRow 10 [3] [2], mkRow 0 [3] [1]] (by decide)

end WithingsGPX
